import Mathlib

/-
Verification development for the cmem-plugin-splitfile repository.

Shallow embedding of:
  - src/cmem_plugin_splitfile/split_by_grouped_prefix.py
    (class SplitGroupedPrefix, method bygroupedprefix and its helper
    write_current_chunk)
  - src/cmem_plugin_splitfile/plugin_splitfile.py
    (SplitFilePlugin.__init__ parameter validation, and the input checks of
    SplitFilePlugin.execute_split preceding the split)

Bytes are modelled as natural numbers, byte strings as `List Nat`.  The
input file is a byte list; chunk files written to disk are modelled as an
append-only list of (ordinal, bytes) pairs carried in the splitter state.
A few identifiers are renamed because the verification toolchain restricts
some identifier endings: `pfx` stands for the source's `prefix`
(so `pfx_buffer` is `prefix_buffer`, `current_pfx` is `current_prefix`,
`bygroupedpfx` is `bygroupedprefix`).
-/

/-- Python ASCII whitespace as used by `bytes.strip` / `bytes.split`:
space, tab, newline, carriage return, vertical tab, form feed. -/
def isSpace (b : Nat) : Bool :=
  b == 32 || b == 9 || b == 10 || b == 13 || b == 11 || b == 12

/-- Embeds `line.split(maxsplit=1)[0] if line.strip() else b""` from
`bygroupedprefix` (split_by_grouped_prefix.py line 271): the first
whitespace-delimited token of the line, or the empty byte string when the
line is empty or whitespace-only. -/
def firstWord (line : List Nat) : List Nat :=
  if line.all isSpace then []
  else (line.dropWhile isSpace).takeWhile (fun b => !isSpace b)

/-- Helper for `splitLines`: accumulates the bytes of the current line in
reverse in `acc`. -/
def splitLinesAux : List Nat → List Nat → List (List Nat)
  | [], acc => if acc.isEmpty then [] else [acc.reverse]
  | b :: bs, acc =>
    if b == 10 then (acc.reverse ++ [10]) :: splitLinesAux bs []
    else splitLinesAux bs (b :: acc)

/-- Embeds the line discipline of `reader.readline()` on a binary file:
cut the byte stream after every newline byte; a final line without a
trailing newline is still returned; an empty file yields no lines. -/
def splitLines (bs : List Nat) : List (List Nat) := splitLinesAux bs []

/-- How a grouped-prefix run ends.  `overflowMid p` embeds the
`ValueError(f"Group with prefix '{...}' exceeds max file size.")` raised at
a prefix change (split_by_grouped_prefix.py lines 280-284): the exception
carries (a decoding of) the offending prefix and nothing else.
`overflowLast` embeds the `ValueError("Group exceeds max split file size
limit.")` raised at end of stream (line 264): it carries no context at all.
`cancelled` is the break taken when the terminate flag is observed at the
top of the read loop (lines 253-256). -/
inductive SplitOutcome where
  | completed : SplitOutcome
  | cancelled : SplitOutcome
  | overflowMid : List Nat → SplitOutcome
  | overflowLast : SplitOutcome
deriving DecidableEq, Repr

/-- The mutable state of `bygroupedprefix` (split_by_grouped_prefix.py
lines 224-250): the next split number, the chunk files already written to
the output directory (ordinal and contents, in flush order), the
chunk-in-progress buffer `current_chunk` with its running total
`current_size`, the buffer of the currently open group (`prefix_buffer` in
the source) with its prefix (`current_prefix` in the source), and the
terminate flag. -/
structure GState where
  splitnum : Nat
  chunks : List (Nat × List Nat)
  current_chunk : List Nat
  current_size : Nat
  pfx_buffer : List Nat
  current_pfx : Option (List Nat)
  terminate : Bool
deriving DecidableEq, Repr

/-- Embeds the nested function `write_current_chunk`
(split_by_grouped_prefix.py lines 228-247): if the chunk-in-progress is
empty do nothing; otherwise write it to the next split file, invoke the
callback with the file and its size, advance the split number and reset
the buffer.  The callback is modelled by its only effect visible to the
splitter: whether it sets the terminate flag (as
`SplitFilePlugin.split_callback` does when the workflow was cancelled). -/
def write_current_chunk (cb : Nat → Nat → Bool) (s : GState) : GState :=
  if s.current_chunk.isEmpty then s
  else
    { s with
      chunks := s.chunks ++ [(s.splitnum, s.current_chunk)]
      terminate := s.terminate || cb s.splitnum s.current_chunk.length
      splitnum := s.splitnum + 1
      current_chunk := []
      current_size := 0 }

/-- The result of a grouped-prefix run: the chunk files on disk (the
exception paths leave previously written files in place) and how the run
ended. -/
structure GResult where
  chunks : List (Nat × List Nat)
  outcome : SplitOutcome
deriving DecidableEq, Repr

/-- Embeds the `while True` read loop of `bygroupedprefix`
(split_by_grouped_prefix.py lines 252-291), one step per input line.
The terminate flag is polled at the top of every iteration; an empty
`readline` result (here: no lines left) triggers the end-of-stream
handling of lines 260-269; otherwise the line's first word either opens a
group, extends the open group, or closes it, in which case the completed
group is size-checked and appended to the chunk-in-progress (flushing
first when it would not fit and the chunk-in-progress is nonempty). -/
def splitLoop (cb : Nat → Nat → Bool) (maxsize : Nat) :
    List (List Nat) → GState → GResult
  | [], s =>
    if s.terminate then ⟨s.chunks, .cancelled⟩
    else if s.pfx_buffer.isEmpty then
      ⟨(write_current_chunk cb s).chunks, .completed⟩
    else if s.pfx_buffer.length > maxsize then ⟨s.chunks, .overflowLast⟩
    else
      let s1 := if s.current_size + s.pfx_buffer.length > maxsize then
        write_current_chunk cb s else s
      let s2 := { s1 with current_chunk := s1.current_chunk ++ s.pfx_buffer }
      ⟨(write_current_chunk cb s2).chunks, .completed⟩
  | line :: rest, s =>
    if s.terminate then ⟨s.chunks, .cancelled⟩
    else
      match s.current_pfx with
      | none =>
        splitLoop cb maxsize rest
          { s with
            current_pfx := some (firstWord line)
            pfx_buffer := s.pfx_buffer ++ line }
      | some p =>
        if firstWord line == p then
          splitLoop cb maxsize rest { s with pfx_buffer := s.pfx_buffer ++ line }
        else if s.pfx_buffer.length > maxsize then ⟨s.chunks, .overflowMid p⟩
        else
          let s1 := if s.current_size + s.pfx_buffer.length > maxsize then
            write_current_chunk cb s else s
          splitLoop cb maxsize rest
            { s1 with
              current_chunk := s1.current_chunk ++ s.pfx_buffer
              current_size := s1.current_size + s.pfx_buffer.length
              pfx_buffer := line
              current_pfx := some (firstWord line) }

/-- The initial state of `bygroupedprefix`: split numbering is hardwired
to start at 1 (split_by_grouped_prefix.py line 224); all buffers empty, no
open group, terminate flag clear. -/
def initGState : GState :=
  { splitnum := 1, chunks := [], current_chunk := [], current_size := 0
    pfx_buffer := [], current_pfx := none, terminate := false }

/-- Embeds `SplitGroupedPrefix.bygroupedprefix(maxsize, callback)`
(split_by_grouped_prefix.py lines 203-293) on an input byte string. -/
def bygroupedpfx (maxsize : Nat) (cb : Nat → Nat → Bool)
    (input : List Nat) : GResult :=
  splitLoop cb maxsize (splitLines input) initGState

/-- A callback that never sets the terminate flag. -/
def cbNone : Nat → Nat → Bool := fun _ _ => false

/-- A callback that sets the terminate flag at the first opportunity, as
`SplitFilePlugin.split_callback` does when the enclosing workflow has been
cancelled (plugin_splitfile.py lines 242-247). -/
def cbStop : Nat → Nat → Bool := fun _ _ => true

/-- The leading tokens appearing in a chunk file: the first word of each
of its lines. -/
def chunkTokens (bs : List Nat) : List (List Nat) :=
  (splitLines bs).map firstWord

/-- The leading tokens of a list of lines. -/
def toks (ls : List (List Nat)) : List (List Nat) := ls.map firstWord

/-- Token-disjointness of two line lists: no leading token of the first
appears as a leading token of the second. -/
def tokDisj (g h : List (List Nat)) : Prop :=
  ∀ t ∈ toks g, t ∉ toks h

/-- The property claimed for the emitted chunk files: no leading-token
value appears in two different chunks. -/
def chunksTokDisjoint (cs : List (Nat × List Nat)) : Prop :=
  cs.Pairwise (fun c d => ∀ t ∈ chunkTokens c.2, t ∉ chunkTokens d.2)

/-- Helper for `lineGroups`: the current group is accumulated in reverse
in `acc`, its leading token in `pfx`. -/
def lineGroupsAux : List (List Nat) → List Nat → List (List Nat) →
    List (List (List Nat))
  | [], _, acc => [acc.reverse]
  | l :: ls, pfx, acc =>
    if firstWord l == pfx then lineGroupsAux ls pfx (l :: acc)
    else acc.reverse :: lineGroupsAux ls (firstWord l) [l]

/-- The decomposition of a line sequence into groups: maximal runs of
consecutive lines sharing the same leading token.  This is the group
notion of the spec (section 3, "Group") for the algorithm of
`bygroupedprefix`. -/
def lineGroups : List (List Nat) → List (List (List Nat))
  | [] => []
  | l :: ls => lineGroupsAux ls (firstWord l) [l]

/-- A token list in which equal values only occur consecutively (the shape
produced by a sorted input file, which the plugin documentation assumes
for grouped-prefix mode). -/
def tokensGrouped : List (List Nat) → Bool
  | [] => true
  | t :: ts => !((ts.dropWhile (fun u => u == t)).contains t) && tokensGrouped ts

/-- Errors detected by the input checks of `SplitFilePlugin.execute_split`
(plugin_splitfile.py lines 256-260). -/
inductive RunError where
  | notFound : RunError
  | emptyInput : RunError
deriving DecidableEq, Repr

/-- Embeds the input checks of `SplitFilePlugin.execute_split`
(plugin_splitfile.py lines 249-264) followed by the grouped-prefix split:
the input file is `none` when the path does not exist; a missing or empty
input fails before any splitting is attempted, so no chunk file is
produced. -/
def execute_split (file : Option (List Nat)) (maxsize : Nat)
    (cb : Nat → Nat → Bool) : Except RunError GResult :=
  match file with
  | none => .error .notFound
  | some bs =>
    if bs.length == 0 then .error .emptyInput
    else .ok (bygroupedpfx maxsize cb bs)

/-- No newline byte occurs in the byte string. -/
def noNl (l : List Nat) : Bool := l.all fun b => !(b == 10)

/-- A well-formed line as produced by `readline`: nonempty, with a newline
byte allowed only in the final position. -/
def wfLine (l : List Nat) : Prop := l ≠ [] ∧ noNl l.dropLast = true

/-- A newline-terminated line: some newline-free body followed by the
newline byte. -/
def closedLine (l : List Nat) : Prop := ∃ m, noNl m = true ∧ l = m ++ [10]

/-- The shape of any line list produced by `splitLines`: every line is
well formed and every line except possibly the last is newline
terminated. -/
def goodLines (L : List (List Nat)) : Prop :=
  (∀ l ∈ L, wfLine l) ∧ ∀ l ∈ L.dropLast, closedLine l

/-- The size-unit parameter of `SplitFilePlugin` after the `.lower()`
normalisation (plugin_splitfile.py lines 39-50, 158): one of the four
choices, or anything else (`other`). -/
inductive SizeUnit where
  | kb : SizeUnit
  | mb : SizeUnit
  | gb : SizeUnit
  | lines : SizeUnit
  | other : SizeUnit
deriving DecidableEq, Repr

/-- The individual messages accumulated in the `errors` string of
`SplitFilePlugin.__init__` (plugin_splitfile.py lines 153-193), in source
order. -/
inductive CfgError where
  | invalidFilename : CfgError
  | invalidSizeUnit : CfgError
  | invalidChunkLines : CfgError
  | groupLines : CfgError
  | minChunkSize : CfgError
  | groupHeader : CfgError
  | invalidProjectsPath : CfgError
  | projectsPathMissing : CfgError
deriving DecidableEq, Repr

/-- How `SplitFilePlugin.__init__` fails: the eager
`raise ValueError('Invalid path for parameter "Custom target directory"')`
of line 190, or the final `raise ValueError(errors[:-1])` of line 193
carrying the accumulated error messages. -/
inductive PluginInitFailure where
  | customTarget : PluginInitFailure
  | valueErrors : List CfgError → PluginInitFailure
deriving DecidableEq, Repr

/-- The configuration state stored by a successful
`SplitFilePlugin.__init__` (plugin_splitfile.py lines 195-208); only the
fields with algorithmic content are modelled. -/
structure PluginCfg where
  size : Int
  lines : Bool
  group_pfx : Bool
  include_header : Bool
deriving DecidableEq, Repr

/-- The chunk size after the unit conversion of plugin_splitfile.py lines
159-166: multiplied by 1024, 1024^2 or 1024^3 for KB/MB/GB, left unchanged
for Lines or an unrecognised unit.  This is the finite-regime model: the
Python value is a float, and scaling a finite float by a power of two is
exact unless the product leaves the double range.  The special float
values (overflow to infinity, NaN) are covered by the refined `PyFloat`
model below (`scaledChunkSizeFloat`); this rational version is the image
of its finite, non-overflowing branch. -/
def scaledChunkSize (chunk_size : ℚ) (u : SizeUnit) : ℚ :=
  match u with
  | .kb => chunk_size * 1024
  | .mb => chunk_size * 1024 ^ 2
  | .gb => chunk_size * 1024 ^ 3
  | _ => chunk_size

/-- Python `int()` on a finite float (modelled as an exact rational):
truncation toward zero.  On the special values `int()` raises instead
(`OverflowError` on an infinity, `ValueError` on NaN); those paths are
modelled in the refined `pluginInitFloat` below, which applies `pyInt`
only to finite values. -/
def pyInt (q : ℚ) : ℤ := q.num.tdiv q.den

/-- The `errors` accumulation of `SplitFilePlugin.__init__`
(plugin_splitfile.py lines 153-186), in source order.  The external path
checks (`is_valid_filepath`, `Path(...).is_dir()`) are modelled by boolean
inputs. -/
def pluginInitErrors (filename_ok : Bool) (chunk_size : ℚ) (size_unit : SizeUnit)
    (group_pfx include_header use_directory : Bool)
    (projects_path_ok projects_path_is_dir : Bool) : List CfgError :=
  (if filename_ok then [] else [.invalidFilename]) ++
    (if size_unit = SizeUnit.other then [.invalidSizeUnit] else []) ++
    (if size_unit = SizeUnit.lines then
      (if ¬((scaledChunkSize chunk_size size_unit).den = 1) ∨
          scaledChunkSize chunk_size size_unit < 1 then [.invalidChunkLines] else []) ++
        (if group_pfx then [.groupLines] else [])
    else if scaledChunkSize chunk_size size_unit < 1024 then [.minChunkSize] else []) ++
    (if group_pfx ∧ include_header then [.groupHeader] else []) ++
    (if use_directory then
      if ¬projects_path_ok then [.invalidProjectsPath]
      else if ¬projects_path_is_dir then [.projectsPathMissing] else []
    else [])

/-- Embeds the parameter validation of `SplitFilePlugin.__init__`
(plugin_splitfile.py lines 140-208).  `custom_target_nonempty` models the
truthiness test `if custom_target_directory:`.  The invalid custom-target
check raises immediately (line 190), before the accumulated errors are
raised (line 193); on success the converted byte budget
`self.size = int(chunk_size)` (line 196) and the flags are stored. -/
def pluginInit (filename_ok : Bool) (chunk_size : ℚ) (size_unit : SizeUnit)
    (group_pfx include_header use_directory : Bool)
    (projects_path_ok projects_path_is_dir : Bool)
    (custom_target_nonempty custom_target_ok : Bool) :
    Except PluginInitFailure PluginCfg :=
  if use_directory ∧ custom_target_nonempty ∧ ¬custom_target_ok then
    .error .customTarget
  else if (pluginInitErrors filename_ok chunk_size size_unit group_pfx include_header
      use_directory projects_path_ok projects_path_is_dir).isEmpty then
    .ok { size := pyInt (scaledChunkSize chunk_size size_unit)
          lines := decide (size_unit = SizeUnit.lines)
          group_pfx := group_pfx
          include_header := include_header }
  else .error (.valueErrors (pluginInitErrors filename_ok chunk_size size_unit
    group_pfx include_header use_directory projects_path_ok projects_path_is_dir))

/-- An IEEE-754 double as seen by the plugin's `chunk_size` parameter: a
finite value (held exactly as a rational — every finite double is a
rational), one of the two infinities, or NaN. -/
inductive PyFloat where
  | finite : ℚ → PyFloat
  | inf : PyFloat
  | neginf : PyFloat
  | nan : PyFloat
deriving DecidableEq, Repr

/-- Absolute value on the rationals, written so that it evaluates in the
kernel. -/
def ratAbs (q : ℚ) : ℚ := if q < 0 then -q else q

/-- Multiplication of a rational by a natural constant, written through
`Rat.divInt` so that it evaluates in the kernel; `ratMulNat_eq` below
identifies it with ordinary multiplication. -/
def ratMulNat (q : ℚ) (k : ℕ) : ℚ := Rat.divInt (q.num * k) q.den

/-- The largest finite double, `sys.float_info.max` = 2^1024 - 2^971
(the decimal literal below is exactly that number). -/
def FLOAT_MAX : ℚ :=
  179769313486231570814527423731704356798070567525844996598917476803157260780028538760589558632766878171540458953514382464234321326889464182768467546703537516986049910576551282076245490090389328944075868508455133942304583236903222948165808559332123348274797826204144723168738177180919299881250404026184124858368

/-- Float multiplication by a positive power-of-two constant (the
scalings `chunk_size *= 1024` / `1024**2` / `1024**3` of
plugin_splitfile.py lines 160-164).  For a finite double the product
keeps the significand and only shifts the exponent, so it is exact unless
its magnitude exceeds `FLOAT_MAX`, in which case round-to-nearest yields
the appropriately signed infinity; the special values propagate. -/
def pyMulPow2 (f : PyFloat) (k : ℕ) : PyFloat :=
  match f with
  | .finite q =>
    if FLOAT_MAX < ratAbs (ratMulNat q k) then (if 0 ≤ q then .inf else .neginf)
    else .finite (ratMulNat q k)
  | .inf => .inf
  | .neginf => .neginf
  | .nan => .nan

/-- The unit conversion of plugin_splitfile.py lines 159-166 on the float
model; 1048576 = 1024^2 and 1073741824 = 1024^3. -/
def scaledChunkSizeFloat (chunk_size : PyFloat) (u : SizeUnit) : PyFloat :=
  match u with
  | .kb => pyMulPow2 chunk_size 1024
  | .mb => pyMulPow2 chunk_size 1048576
  | .gb => pyMulPow2 chunk_size 1073741824
  | _ => chunk_size

/-- The float comparison `chunk_size < c` against an integer constant
(plugin_splitfile.py lines 171, 175): ordinary order on finite values;
any comparison with NaN is false; -inf is below and +inf above every
constant. -/
def pyLtConst : PyFloat → ℚ → Bool
  | .finite q, c => decide (q < c)
  | .inf, _ => false
  | .neginf, _ => true
  | .nan, _ => false

/-- The lines-mode validity test `int(chunk_size) != chunk_size or
chunk_size < 1` (plugin_splitfile.py line 171) on a finite float: not an
integer, or below one.  `pluginInitFloat` consults this only for finite
values — on NaN or an infinity the `int()` call inside the test raises
first, which `pluginInitFloat` models separately. -/
def linesChunkInvalidF : PyFloat → Bool
  | .finite q => decide (¬q.den = 1 ∨ q < 1)
  | _ => false

/-- The `errors` accumulation of `SplitFilePlugin.__init__` on the float
model (plugin_splitfile.py lines 153-186); same structure as
`pluginInitErrors`, with the float comparisons of lines 171 and 175. -/
def pluginInitErrorsFloat (filename_ok : Bool) (chunk_size : PyFloat)
    (size_unit : SizeUnit) (group_pfx include_header use_directory : Bool)
    (projects_path_ok projects_path_is_dir : Bool) : List CfgError :=
  (if filename_ok then [] else [.invalidFilename]) ++
    (if size_unit = SizeUnit.other then [.invalidSizeUnit] else []) ++
    (if size_unit = SizeUnit.lines then
      (if linesChunkInvalidF chunk_size then [.invalidChunkLines] else []) ++
        (if group_pfx then [.groupLines] else [])
    else if pyLtConst (scaledChunkSizeFloat chunk_size size_unit) 1024 then
      [.minChunkSize]
    else []) ++
    (if group_pfx ∧ include_header then [.groupHeader] else []) ++
    (if use_directory then
      if ¬projects_path_ok then [.invalidProjectsPath]
      else if ¬projects_path_is_dir then [.projectsPathMissing] else []
    else [])

/-- How `SplitFilePlugin.__init__` fails on the float model.  Besides the
two `ValueError` paths of `PluginInitFailure`, Python's `int()` itself
raises on the special values: `ValueError` ("cannot convert float NaN to
integer") on NaN and `OverflowError` on an infinity — at line 171 in
lines mode, at line 196 (`self.size = int(chunk_size)`) otherwise. -/
inductive PluginInitFloatFailure where
  | customTarget : PluginInitFloatFailure
  | valueErrors : List CfgError → PluginInitFloatFailure
  | intValueErrorNan : PluginInitFloatFailure
  | intOverflowError : PluginInitFloatFailure
deriving DecidableEq, Repr

/-- Whether a constructor failure is a Python `ValueError` (as opposed
to the `OverflowError` that `int()` raises on an infinity). -/
def isValueError : PluginInitFloatFailure → Bool
  | .customTarget => true
  | .valueErrors _ => true
  | .intValueErrorNan => true
  | .intOverflowError => false

/-- Embeds `SplitFilePlugin.__init__` (plugin_splitfile.py lines 140-208)
on the float model of `chunk_size`.  Control flow follows the source: in
lines mode the test at line 171 calls `int(chunk_size)`, which raises
immediately on NaN or an infinity; otherwise errors accumulate, the
invalid custom-target check raises (line 190), then the accumulated
errors (line 193), and finally `self.size = int(chunk_size)` (line 196)
either truncates the scaled value or raises on NaN / an infinity. -/
def pluginInitFloat (filename_ok : Bool) (chunk_size : PyFloat)
    (size_unit : SizeUnit) (group_pfx include_header use_directory : Bool)
    (projects_path_ok projects_path_is_dir : Bool)
    (custom_target_nonempty custom_target_ok : Bool) :
    Except PluginInitFloatFailure PluginCfg :=
  if size_unit = SizeUnit.lines ∧ chunk_size = PyFloat.nan then
    .error .intValueErrorNan
  else if size_unit = SizeUnit.lines ∧
      (chunk_size = PyFloat.inf ∨ chunk_size = PyFloat.neginf) then
    .error .intOverflowError
  else if use_directory ∧ custom_target_nonempty ∧ ¬custom_target_ok then
    .error .customTarget
  else if (pluginInitErrorsFloat filename_ok chunk_size size_unit group_pfx
      include_header use_directory projects_path_ok projects_path_is_dir).isEmpty then
    match scaledChunkSizeFloat chunk_size size_unit with
    | .finite q =>
      .ok { size := pyInt q, lines := decide (size_unit = SizeUnit.lines)
            group_pfx := group_pfx, include_header := include_header }
    | .nan => .error .intValueErrorNan
    | _ => .error .intOverflowError
  else .error (.valueErrors (pluginInitErrorsFloat filename_ok chunk_size size_unit
    group_pfx include_header use_directory projects_path_ok projects_path_is_dir))

/-! Basic facts about `write_current_chunk`. -/

/-- The concatenation, in flush order, of the chunk files on disk. -/
def emitted (cs : List (Nat × List Nat)) : List Nat := (cs.map Prod.snd).flatten

theorem emitted_append (cs ds : List (Nat × List Nat)) :
    emitted (cs ++ ds) = emitted cs ++ emitted ds := by
  simp [emitted]

theorem wcc_pfx_buffer (cb : Nat → Nat → Bool) (s : GState) :
    (write_current_chunk cb s).pfx_buffer = s.pfx_buffer := by
  unfold write_current_chunk
  split <;> rfl

theorem wcc_current_pfx (cb : Nat → Nat → Bool) (s : GState) :
    (write_current_chunk cb s).current_pfx = s.current_pfx := by
  unfold write_current_chunk
  split <;> rfl

theorem wcc_current_chunk (cb : Nat → Nat → Bool) (s : GState) :
    (write_current_chunk cb s).current_chunk = [] := by
  unfold write_current_chunk
  split
  · next h => exact List.isEmpty_iff.mp h
  · rfl

theorem wcc_emitted (cb : Nat → Nat → Bool) (s : GState) :
    emitted (write_current_chunk cb s).chunks = emitted s.chunks ++ s.current_chunk := by
  unfold write_current_chunk
  split
  · next h => simp [List.isEmpty_iff.mp h]
  · simp [emitted_append, emitted]

theorem wcc_chunks_shape (cb : Nat → Nat → Bool) (s : GState) :
    (write_current_chunk cb s).chunks = s.chunks ∨
      (write_current_chunk cb s).chunks = s.chunks ++ [(s.splitnum, s.current_chunk)] := by
  unfold write_current_chunk
  split
  · exact Or.inl rfl
  · exact Or.inr rfl

/-! `splitLines` reassembles to the original byte string. -/

theorem splitLinesAux_flatten (bs : List Nat) :
    ∀ acc : List Nat, (splitLinesAux bs acc).flatten = acc.reverse ++ bs := by
  induction bs with
  | nil =>
    intro acc
    unfold splitLinesAux
    split
    · next h => simp [List.isEmpty_iff.mp h]
    · simp
  | cons b bs ih =>
    intro acc
    unfold splitLinesAux
    split
    · next h =>
      have hb : b = 10 := by simpa using h
      subst hb
      simp [List.flatten, ih []]
    · next h =>
      rw [ih (b :: acc)]
      simp

theorem splitLines_flatten (bs : List Nat) : (splitLines bs).flatten = bs := by
  simpa using splitLinesAux_flatten bs []

/-! The byte-accounting invariant of the split loop. -/

theorem splitLoop_completed_emitted (cb : Nat → Nat → Bool) (maxsize : Nat) :
    ∀ (lines : List (List Nat)) (s : GState),
      (splitLoop cb maxsize lines s).outcome = SplitOutcome.completed →
      emitted (splitLoop cb maxsize lines s).chunks =
        emitted s.chunks ++ s.current_chunk ++ s.pfx_buffer ++ lines.flatten := by
  intro lines
  induction lines with
  | nil =>
    intro s h
    by_cases hterm : s.terminate
    · simp [splitLoop, hterm] at h
    by_cases hpb : s.pfx_buffer.isEmpty
    · simp only [splitLoop, hterm, if_false, Bool.false_eq_true, hpb, if_true]
      rw [wcc_emitted]
      simp [List.isEmpty_iff.mp hpb]
    by_cases hgt : s.pfx_buffer.length > maxsize
    · simp [splitLoop, hterm, hpb, hgt] at h
    by_cases hflush : s.current_size + s.pfx_buffer.length > maxsize
    · simp only [splitLoop, hterm, Bool.false_eq_true, if_false, hpb, hgt, hflush, if_true]
      rw [wcc_emitted]
      simp only [wcc_emitted, wcc_current_chunk]
      simp
    · simp only [splitLoop, hterm, Bool.false_eq_true, if_false, hpb, hgt, hflush, if_true]
      rw [wcc_emitted]
      simp
  | cons line rest ih =>
    intro s h
    by_cases hterm : s.terminate
    · simp [splitLoop, hterm] at h
    rcases hp : s.current_pfx with _ | p
    · simp only [splitLoop, hterm, Bool.false_eq_true, if_false, hp] at h ⊢
      rw [ih _ h]
      simp
    by_cases hfw : firstWord line == p
    · simp only [splitLoop, hterm, Bool.false_eq_true, if_false, hp, hfw, if_true] at h ⊢
      rw [ih _ h]
      simp
    by_cases hgt : s.pfx_buffer.length > maxsize
    · simp [splitLoop, hterm, hp, hfw, hgt] at h
    by_cases hflush : s.current_size + s.pfx_buffer.length > maxsize
    · simp only [splitLoop, hterm, Bool.false_eq_true, if_false, hp, hfw, hgt, hflush,
        if_true] at h ⊢
      rw [ih _ h]
      simp only [wcc_emitted, wcc_current_chunk, wcc_pfx_buffer]
      simp
    · simp only [splitLoop, hterm, Bool.false_eq_true, if_false, hp, hfw, hgt, hflush,
        if_true] at h ⊢
      rw [ih _ h]
      simp

theorem splitLoop_emitted_leads (cb : Nat → Nat → Bool) (maxsize : Nat) :
    ∀ (lines : List (List Nat)) (s : GState),
      ∃ tail : List Nat,
        emitted (splitLoop cb maxsize lines s).chunks ++ tail =
          emitted s.chunks ++ s.current_chunk ++ s.pfx_buffer ++ lines.flatten := by
  intro lines
  induction lines with
  | nil =>
    intro s
    by_cases hterm : s.terminate
    · refine ⟨s.current_chunk ++ s.pfx_buffer, ?_⟩
      simp [splitLoop, hterm]
    by_cases hpb : s.pfx_buffer.isEmpty
    · refine ⟨[], ?_⟩
      simp only [splitLoop, hterm, Bool.false_eq_true, if_false, hpb, if_true]
      rw [wcc_emitted]
      simp [List.isEmpty_iff.mp hpb]
    by_cases hgt : s.pfx_buffer.length > maxsize
    · refine ⟨s.current_chunk ++ s.pfx_buffer, ?_⟩
      simp [splitLoop, hterm, hpb, hgt]
    by_cases hflush : s.current_size + s.pfx_buffer.length > maxsize
    · refine ⟨[], ?_⟩
      simp only [splitLoop, hterm, Bool.false_eq_true, if_false, hpb, hgt, hflush, if_true]
      rw [wcc_emitted]
      simp only [wcc_emitted, wcc_current_chunk]
      simp
    · refine ⟨[], ?_⟩
      simp only [splitLoop, hterm, Bool.false_eq_true, if_false, hpb, hgt, hflush, if_true]
      rw [wcc_emitted]
      simp
  | cons line rest ih =>
    intro s
    by_cases hterm : s.terminate
    · refine ⟨s.current_chunk ++ s.pfx_buffer ++ (line :: rest).flatten, ?_⟩
      simp [splitLoop, hterm]
    rcases hp : s.current_pfx with _ | p
    · obtain ⟨tail, htail⟩ := ih
        { s with
          current_pfx := some (firstWord line)
          pfx_buffer := s.pfx_buffer ++ line
          terminate := false }
      refine ⟨tail, ?_⟩
      simp only [splitLoop, hterm, Bool.false_eq_true, if_false, hp]
      rw [htail]
      simp
    by_cases hfw : firstWord line == p
    · obtain ⟨tail, htail⟩ := ih
        { s with
          pfx_buffer := s.pfx_buffer ++ line
          current_pfx := some p
          terminate := false }
      refine ⟨tail, ?_⟩
      simp only [splitLoop, hterm, Bool.false_eq_true, if_false, hp, hfw, if_true]
      rw [htail]
      simp
    by_cases hgt : s.pfx_buffer.length > maxsize
    · refine ⟨s.current_chunk ++ s.pfx_buffer ++ (line :: rest).flatten, ?_⟩
      simp [splitLoop, hterm, hp, hfw, hgt]
    by_cases hflush : s.current_size + s.pfx_buffer.length > maxsize
    · obtain ⟨tail, htail⟩ := ih
        { write_current_chunk cb s with
          current_chunk := (write_current_chunk cb s).current_chunk ++ s.pfx_buffer
          current_size := (write_current_chunk cb s).current_size + s.pfx_buffer.length
          pfx_buffer := line
          current_pfx := some (firstWord line) }
      refine ⟨tail, ?_⟩
      simp only [splitLoop, hterm, Bool.false_eq_true, if_false, hp, hfw, hgt, hflush, if_true]
      rw [htail]
      simp only [wcc_emitted, wcc_current_chunk]
      simp
    · obtain ⟨tail, htail⟩ := ih
        { s with
          current_chunk := s.current_chunk ++ s.pfx_buffer
          current_size := s.current_size + s.pfx_buffer.length
          pfx_buffer := line
          current_pfx := some (firstWord line)
          terminate := false }
      refine ⟨tail, ?_⟩
      simp only [splitLoop, hterm, Bool.false_eq_true, if_false, hp, hfw, hgt, hflush, if_true]
      rw [htail]
      simp

/-! The chunk-size invariant of the split loop. -/

theorem wcc_eq_of_empty (cb : Nat → Nat → Bool) {s : GState}
    (h : s.current_chunk.isEmpty) : write_current_chunk cb s = s := by
  unfold write_current_chunk
  simp [h]

theorem wcc_current_size (cb : Nat → Nat → Bool) {s : GState}
    (hcs : s.current_size = s.current_chunk.length) :
    (write_current_chunk cb s).current_size = 0 := by
  unfold write_current_chunk
  split
  · next h => simp [hcs, List.isEmpty_iff.mp h]
  · rfl

theorem wcc_chunks_le (cb : Nat → Nat → Bool) {s : GState} {m : Nat}
    (h1 : ∀ c ∈ s.chunks, c.2.length ≤ m)
    (h2 : s.current_chunk.length ≤ m) :
    ∀ c ∈ (write_current_chunk cb s).chunks, c.2.length ≤ m := by
  rcases wcc_chunks_shape cb s with hsh | hsh <;> rw [hsh]
  · exact h1
  · intro c hc
    rcases List.mem_append.mp hc with hc | hc
    · exact h1 c hc
    · rcases List.mem_singleton.mp hc with rfl
      exact h2

theorem splitLoop_chunk_sizes (cb : Nat → Nat → Bool) (maxsize : Nat) :
    ∀ (lines : List (List Nat)) (s : GState),
      (∀ c ∈ s.chunks, c.2.length ≤ maxsize) →
      s.current_chunk.length ≤ maxsize →
      s.current_size = s.current_chunk.length →
      ∀ c ∈ (splitLoop cb maxsize lines s).chunks, c.2.length ≤ maxsize := by
  intro lines
  induction lines with
  | nil =>
    intro s h1 h2 hcs
    by_cases hterm : s.terminate
    · simpa [splitLoop, hterm] using h1
    by_cases hpb : s.pfx_buffer.isEmpty
    · simp only [splitLoop, hterm, Bool.false_eq_true, if_false, hpb, if_true]
      exact wcc_chunks_le cb h1 h2
    by_cases hgt : s.pfx_buffer.length > maxsize
    · simpa [splitLoop, hterm, hpb, hgt] using h1
    by_cases hflush : s.current_size + s.pfx_buffer.length > maxsize
    · simp only [splitLoop, hterm, Bool.false_eq_true, if_false, hpb, hgt, hflush, if_true]
      refine wcc_chunks_le cb (wcc_chunks_le cb h1 h2) ?_
      simp [wcc_current_chunk, Nat.le_of_not_lt hgt]
    · simp only [splitLoop, hterm, Bool.false_eq_true, if_false, hpb, hgt, hflush, if_true]
      refine wcc_chunks_le cb h1 ?_
      simp only [List.length_append]
      rw [← hcs]
      exact Nat.le_of_not_lt hflush
  | cons line rest ih =>
    intro s h1 h2 hcs
    by_cases hterm : s.terminate
    · simpa [splitLoop, hterm] using h1
    rcases hp : s.current_pfx with _ | p
    · simp only [splitLoop, hterm, Bool.false_eq_true, if_false, hp]
      exact ih _ h1 h2 hcs
    by_cases hfw : firstWord line == p
    · simp only [splitLoop, hterm, Bool.false_eq_true, if_false, hp, hfw, if_true]
      exact ih _ h1 h2 hcs
    by_cases hgt : s.pfx_buffer.length > maxsize
    · simpa [splitLoop, hterm, hp, hfw, hgt] using h1
    by_cases hflush : s.current_size + s.pfx_buffer.length > maxsize
    · simp only [splitLoop, hterm, Bool.false_eq_true, if_false, hp, hfw, hgt, hflush, if_true]
      refine ih _ (wcc_chunks_le cb h1 h2) ?_ ?_
      · simp [wcc_current_chunk, Nat.le_of_not_lt hgt]
      · simp [wcc_current_chunk, wcc_current_size cb hcs]
    · simp only [splitLoop, hterm, Bool.false_eq_true, if_false, hp, hfw, hgt, hflush, if_true]
      refine ih _ h1 ?_ ?_
      · simp only [List.length_append]
        rw [← hcs]
        exact Nat.le_of_not_lt hflush
      · simp [hcs]

/-! The ordinal invariant of the split loop. -/

theorem wcc_splitnum (cb : Nat → Nat → Bool) {s : GState}
    (h1 : s.splitnum = s.chunks.length + 1) :
    (write_current_chunk cb s).splitnum = (write_current_chunk cb s).chunks.length + 1 := by
  unfold write_current_chunk
  split
  · exact h1
  · simp [h1]

theorem wcc_ordinals (cb : Nat → Nat → Bool) {s : GState}
    (h1 : s.splitnum = s.chunks.length + 1)
    (h2 : s.chunks.map Prod.fst = List.range' 1 s.chunks.length) :
    (write_current_chunk cb s).chunks.map Prod.fst =
      List.range' 1 (write_current_chunk cb s).chunks.length := by
  unfold write_current_chunk
  split
  · exact h2
  · simp only [List.map_append, List.map_cons, List.map_nil, List.length_append,
      List.length_cons, List.length_nil, h2, h1]
    have hr : List.range' 1 (s.chunks.length + 1) =
        List.range' 1 s.chunks.length ++ [1 + 1 * s.chunks.length] :=
      List.range'_concat 1 s.chunks.length
    simp only [Nat.one_mul] at hr
    simp [hr, Nat.add_comm]

theorem splitLoop_ordinals (cb : Nat → Nat → Bool) (maxsize : Nat) :
    ∀ (lines : List (List Nat)) (s : GState),
      s.splitnum = s.chunks.length + 1 →
      s.chunks.map Prod.fst = List.range' 1 s.chunks.length →
      (splitLoop cb maxsize lines s).chunks.map Prod.fst =
        List.range' 1 (splitLoop cb maxsize lines s).chunks.length := by
  intro lines
  induction lines with
  | nil =>
    intro s h1 h2
    by_cases hterm : s.terminate
    · simpa [splitLoop, hterm] using h2
    by_cases hpb : s.pfx_buffer.isEmpty
    · simp only [splitLoop, hterm, Bool.false_eq_true, if_false, hpb, if_true]
      exact wcc_ordinals cb h1 h2
    by_cases hgt : s.pfx_buffer.length > maxsize
    · simpa [splitLoop, hterm, hpb, hgt] using h2
    by_cases hflush : s.current_size + s.pfx_buffer.length > maxsize
    · simp only [splitLoop, hterm, Bool.false_eq_true, if_false, hpb, hgt, hflush, if_true]
      exact wcc_ordinals cb (wcc_splitnum cb h1) (wcc_ordinals cb h1 h2)
    · simp only [splitLoop, hterm, Bool.false_eq_true, if_false, hpb, hgt, hflush, if_true]
      exact wcc_ordinals cb h1 h2
  | cons line rest ih =>
    intro s h1 h2
    by_cases hterm : s.terminate
    · simpa [splitLoop, hterm] using h2
    rcases hp : s.current_pfx with _ | p
    · simp only [splitLoop, hterm, Bool.false_eq_true, if_false, hp]
      exact ih _ h1 h2
    by_cases hfw : firstWord line == p
    · simp only [splitLoop, hterm, Bool.false_eq_true, if_false, hp, hfw, if_true]
      exact ih _ h1 h2
    by_cases hgt : s.pfx_buffer.length > maxsize
    · simpa [splitLoop, hterm, hp, hfw, hgt] using h2
    by_cases hflush : s.current_size + s.pfx_buffer.length > maxsize
    · simp only [splitLoop, hterm, Bool.false_eq_true, if_false, hp, hfw, hgt, hflush, if_true]
      exact ih _ (wcc_splitnum cb h1) (wcc_ordinals cb h1 h2)
    · simp only [splitLoop, hterm, Bool.false_eq_true, if_false, hp, hfw, hgt, hflush, if_true]
      exact ih _ h1 h2

/-! Runs with a callback that never cancels are never cancelled. -/

theorem wcc_terminate_cbNone {s : GState} (h : s.terminate = false) :
    (write_current_chunk cbNone s).terminate = false := by
  unfold write_current_chunk
  split
  · exact h
  · simp [cbNone, h]

theorem splitLoop_cbNone_not_cancelled (maxsize : Nat) :
    ∀ (lines : List (List Nat)) (s : GState), s.terminate = false →
      (splitLoop cbNone maxsize lines s).outcome ≠ SplitOutcome.cancelled := by
  intro lines
  induction lines with
  | nil =>
    intro s h
    by_cases hpb : s.pfx_buffer.isEmpty
    · simp [splitLoop, h, hpb]
    by_cases hgt : s.pfx_buffer.length > maxsize
    · simp [splitLoop, h, hpb, hgt]
    by_cases hflush : s.current_size + s.pfx_buffer.length > maxsize
    · simp [splitLoop, h, hpb, hgt, hflush]
    · simp [splitLoop, h, hpb, hgt, hflush]
  | cons line rest ih =>
    intro s h
    rcases hp : s.current_pfx with _ | p
    · simp only [splitLoop, h, Bool.false_eq_true, if_false, hp]
      exact ih _ rfl
    by_cases hfw : firstWord line == p
    · simp only [splitLoop, h, Bool.false_eq_true, if_false, hp, hfw, if_true]
      exact ih _ rfl
    by_cases hgt : s.pfx_buffer.length > maxsize
    · simp [splitLoop, h, hp, hfw, hgt]
    by_cases hflush : s.current_size + s.pfx_buffer.length > maxsize
    · simp only [splitLoop, h, Bool.false_eq_true, if_false, hp, hfw, hgt, hflush, if_true]
      exact ih _ (wcc_terminate_cbNone h)
    · simp only [splitLoop, h, Bool.false_eq_true, if_false, hp, hfw, hgt, hflush, if_true]
      exact ih _ rfl

/-! The group decomposition of a line sequence. -/

theorem lineGroups_nil : lineGroups [] = [] := rfl

theorem lineGroupsAux_eq :
    ∀ (ls : List (List Nat)) (pfx : List Nat) (acc : List (List Nat)),
      lineGroupsAux ls pfx acc =
        (acc.reverse ++ ls.takeWhile (fun m => firstWord m == pfx)) ::
          lineGroups (ls.dropWhile (fun m => firstWord m == pfx)) := by
  intro ls
  induction ls with
  | nil =>
    intro pfx acc
    simp [lineGroupsAux, lineGroups]
  | cons l ls ih =>
    intro pfx acc
    by_cases hfw : firstWord l == pfx
    · simp only [lineGroupsAux, hfw, if_true, List.takeWhile_cons, List.dropWhile_cons]
      rw [ih]
      simp
    · simp only [lineGroupsAux, hfw, Bool.false_eq_true, if_false, List.takeWhile_cons,
        List.dropWhile_cons]
      simp [lineGroups]

theorem lineGroups_cons (l : List Nat) (ls : List (List Nat)) :
    lineGroups (l :: ls) =
      (l :: ls.takeWhile (fun m => firstWord m == firstWord l)) ::
        lineGroups (ls.dropWhile (fun m => firstWord m == firstWord l)) := by
  show lineGroupsAux ls (firstWord l) [l] = _
  rw [lineGroupsAux_eq]
  simp

/-! A run that completes has passed the size check of every group. -/

theorem splitLoop_completed_groups (cb : Nat → Nat → Bool) (maxsize : Nat) :
    ∀ (lines : List (List Nat)) (s : GState),
      (splitLoop cb maxsize lines s).outcome = SplitOutcome.completed →
      (∀ p, s.current_pfx = some p →
        s.pfx_buffer.length +
            ((lines.takeWhile fun l => firstWord l == p).flatten).length ≤ maxsize ∧
        ∀ g ∈ lineGroups (lines.dropWhile fun l => firstWord l == p),
          g.flatten.length ≤ maxsize) ∧
      (s.current_pfx = none →
        ∀ g ∈ lineGroups lines, g.flatten.length ≤ maxsize) := by
  intro lines
  induction lines with
  | nil =>
    intro s h
    constructor
    · intro p _
      refine ⟨?_, by simp [lineGroups_nil]⟩
      by_cases hterm : s.terminate
      · simp [splitLoop, hterm] at h
      by_cases hpb : s.pfx_buffer.isEmpty
      · simp [List.isEmpty_iff.mp hpb]
      by_cases hgt : s.pfx_buffer.length > maxsize
      · simp [splitLoop, hterm, hpb, hgt] at h
      · simpa using Nat.le_of_not_lt hgt
    · intro _
      simp [lineGroups_nil]
  | cons line rest ih =>
    intro s h
    by_cases hterm : s.terminate
    · simp [splitLoop, hterm] at h
    constructor
    · intro p hp
      by_cases hfw : firstWord line == p
      · simp only [splitLoop, hterm, Bool.false_eq_true, if_false, hp, hfw, if_true] at h
        obtain ⟨hsome, -⟩ := ih _ h
        obtain ⟨hle, hgroups⟩ := hsome p rfl
        simp only [List.takeWhile_cons, List.dropWhile_cons, hfw, if_true]
        constructor
        · simp only [List.flatten_cons, List.length_append] at hle ⊢
          omega
        · exact hgroups
      by_cases hgt : s.pfx_buffer.length > maxsize
      · simp [splitLoop, hterm, hp, hfw, hgt] at h
      by_cases hflush : s.current_size + s.pfx_buffer.length > maxsize
      all_goals {
        simp only [splitLoop, hterm, Bool.false_eq_true, if_false, hp, hfw, hgt, hflush,
          if_true] at h
        obtain ⟨hsome, -⟩ := ih _ h
        obtain ⟨hle, hgroups⟩ := hsome (firstWord line) rfl
        simp only [List.takeWhile_cons, List.dropWhile_cons, hfw, Bool.false_eq_true,
          if_false]
        refine ⟨by simpa using Nat.le_of_not_lt hgt, ?_⟩
        intro g hg
        rw [lineGroups_cons] at hg
        rcases List.mem_cons.mp hg with rfl | hg
        · simp only [List.flatten_cons, List.length_append]
          simpa using hle
        · exact hgroups g hg
      }
    · intro hp
      simp only [splitLoop, hterm, Bool.false_eq_true, if_false, hp] at h
      obtain ⟨hsome, -⟩ := ih _ h
      obtain ⟨hle, hgroups⟩ := hsome (firstWord line) rfl
      intro g hg
      rw [lineGroups_cons] at hg
      rcases List.mem_cons.mp hg with rfl | hg
      · simp only [List.flatten_cons, List.length_append, List.length_append] at hle ⊢
        omega
      · exact hgroups g hg

/-! Wellformedness of the lines produced by `splitLines`, and the inverse
direction: `splitLines` of a flattened well-formed line list returns the
line list itself. -/

theorem noNl_append_singleton (xs : List Nat) (x : Nat) :
    noNl (xs ++ [x]) = (noNl xs && !(x == 10)) := by
  simp [noNl, List.all_append]

theorem noNl_of_sub {l m : List Nat} (h : noNl m = true) (hs : ∀ b ∈ l, b ∈ m) :
    noNl l = true := by
  simp only [noNl, List.all_eq_true] at h ⊢
  exact fun b hb => h b (hs b hb)

theorem splitLinesAux_closed_cut {m : List Nat} (hm : noNl m = true) :
    ∀ (bs acc : List Nat),
      splitLinesAux (m ++ 10 :: bs) acc =
        (acc.reverse ++ m ++ [10]) :: splitLinesAux bs [] := by
  induction m with
  | nil =>
    intro bs acc
    simp [splitLinesAux]
  | cons c m ih =>
    intro bs acc
    have hc : (c == 10) = false := by
      simp only [noNl, List.all_cons, Bool.and_eq_true] at hm
      simpa using hm.1
    have hm' : noNl m = true := by
      simp only [noNl, List.all_cons, Bool.and_eq_true] at hm
      exact hm.2
    simp only [List.cons_append, splitLinesAux, hc, Bool.false_eq_true, if_false,
      List.append_eq]
    rw [ih hm']
    simp

theorem splitLinesAux_open_tail {m : List Nat} (hm : noNl m = true) :
    ∀ acc : List Nat, acc.reverse ++ m ≠ [] →
      splitLinesAux m acc = [acc.reverse ++ m] := by
  induction m with
  | nil =>
    intro acc hne
    simp only [List.append_nil] at hne
    have : acc ≠ [] := fun h => hne (by simp [h])
    simp [splitLinesAux, List.isEmpty_iff, this]
  | cons c m ih =>
    intro acc _
    have hc : (c == 10) = false := by
      simp only [noNl, List.all_cons, Bool.and_eq_true] at hm
      simpa using hm.1
    have hm' : noNl m = true := by
      simp only [noNl, List.all_cons, Bool.and_eq_true] at hm
      exact hm.2
    simp only [splitLinesAux, hc, Bool.false_eq_true, if_false]
    rw [ih hm' (c :: acc) (by simp)]
    simp

theorem splitLines_closed_append {l : List Nat} (hl : closedLine l) (bs : List Nat) :
    splitLines (l ++ bs) = l :: splitLines bs := by
  obtain ⟨m, hm, rfl⟩ := hl
  unfold splitLines
  rw [List.append_assoc, List.singleton_append, splitLinesAux_closed_cut hm]
  simp

theorem splitLines_single {l : List Nat} (hl : wfLine l) : splitLines l = [l] := by
  obtain ⟨hne, hnl⟩ := hl
  rcases heq : l.getLast hne == 10 with _ | _
  · have hnl' : noNl l = true := by
      have hdl : l = l.dropLast ++ [l.getLast hne] := by
        exact (List.dropLast_append_getLast hne).symm
      rw [hdl, noNl_append_singleton, hnl]
      simpa using heq
    have := splitLinesAux_open_tail hnl' [] (by simpa using hne)
    simpa [splitLines] using this
  · have hcl : closedLine l := by
      refine ⟨l.dropLast, hnl, ?_⟩
      have h10 : l.getLast hne = 10 := by simpa using heq
      have := List.dropLast_append_getLast hne
      rw [← this]
      simp [h10]
    have := splitLines_closed_append hcl []
    simpa using this

theorem splitLines_flatten_eq :
    ∀ g : List (List Nat), (∀ l ∈ g, wfLine l) → (∀ l ∈ g.dropLast, closedLine l) →
      splitLines g.flatten = g := by
  intro g
  induction g with
  | nil => intro _ _; rfl
  | cons l g ih =>
    intro hwf hcl
    rcases g with _ | ⟨l', g'⟩
    · simpa using splitLines_single (hwf l (by simp))
    · have hlc : closedLine l := hcl l (by simp [List.dropLast_cons₂])
      simp only [List.flatten_cons]
      rw [← List.append_assoc]
      have hflat : l ++ (l' ++ g'.flatten) = l ++ (l' :: g').flatten := by simp
      rw [show l ++ l' ++ g'.flatten = l ++ (l' :: g').flatten by simp]
      rw [splitLines_closed_append hlc]
      rw [ih (fun x hx => hwf x (by simp [hx]))
        (fun x hx => hcl x (by simp [List.dropLast_cons₂, hx]))]

theorem splitLinesAux_good :
    ∀ (bs acc : List Nat), noNl acc.reverse = true →
      (∀ l ∈ splitLinesAux bs acc, wfLine l) ∧
      (∀ l ∈ (splitLinesAux bs acc).dropLast, closedLine l) := by
  intro bs
  induction bs with
  | nil =>
    intro acc hacc
    unfold splitLinesAux
    split
    · simp
    constructor
    · intro l hl
      rcases List.mem_singleton.mp hl with rfl
      refine ⟨?_, ?_⟩
      · next h => simpa [List.isEmpty_iff] using h
      · exact noNl_of_sub hacc fun b hb => (List.dropLast_sublist _).subset hb
    · simp
  | cons b bs ih =>
    intro acc hacc
    unfold splitLinesAux
    split
    · next hb =>
      have h10 : b = 10 := by simpa using hb
      obtain ⟨ihwf, ihcl⟩ := ih [] (by simp [noNl])
      have hhead : closedLine (acc.reverse ++ [10]) := ⟨acc.reverse, hacc, rfl⟩
      constructor
      · intro l hl
        rcases List.mem_cons.mp hl with rfl | hl
        · refine ⟨by simp, ?_⟩
          rw [List.dropLast_concat]
          exact hacc
        · exact ihwf l hl
      · intro l hl
        rcases hsp : splitLinesAux bs [] with _ | ⟨x, xs⟩
        · simp [hsp] at hl
        · rw [hsp] at hl
          rw [List.dropLast_cons₂] at hl
          rcases List.mem_cons.mp hl with rfl | hl
          · exact hhead
          · rw [← hsp] at hl
            exact ihcl l hl
    · next hb =>
      have hbn : noNl (b :: acc).reverse = true := by
        simp only [List.reverse_cons, noNl_append_singleton, hacc, Bool.true_and]
        simpa using hb
      exact ih (b :: acc) hbn

theorem splitLines_good (bs : List Nat) : goodLines (splitLines bs) := by
  have := splitLinesAux_good bs [] (by simp [noNl])
  exact ⟨this.1, this.2⟩

/-! Segment lemmas: a contiguous block of a good line list is itself
good enough to reconstruct with `splitLines`. -/

theorem mem_dropLast_split {α : Type} {x : α} {ls : List α}
    (h : x ∈ ls.dropLast) : ∃ P Q, ls = P ++ x :: Q ∧ Q ≠ [] := by
  obtain ⟨P, Q', hPQ⟩ := List.append_of_mem h
  have hne : ls ≠ [] := by
    intro hnil
    rw [hnil] at h
    simp at h
  have hlast := List.dropLast_append_getLast hne
  refine ⟨P, Q' ++ [ls.getLast hne], ?_, by simp⟩
  conv_lhs => rw [← hlast]
  rw [hPQ]
  simp

theorem mem_dropLast_of_append {α : Type} (A : List α) (x : α) (B : List α)
    (hB : B ≠ []) : x ∈ (A ++ x :: B).dropLast := by
  induction A with
  | nil =>
    rcases B with _ | ⟨b, B'⟩
    · exact absurd rfl hB
    · simp [List.dropLast_cons₂]
  | cons a A ih =>
    have hne : A ++ x :: B ≠ [] := by simp
    rw [List.cons_append, List.dropLast_cons_of_ne_nil hne]
    exact List.mem_cons_of_mem a ih

theorem goodLines_segment {L A g B : List (List Nat)}
    (hgood : goodLines L) (hseg : L = A ++ g ++ B) :
    (∀ l ∈ g, wfLine l) ∧ (∀ l ∈ g.dropLast, closedLine l) := by
  constructor
  · intro l hl
    refine hgood.1 l ?_
    rw [hseg]
    simp only [List.append_assoc, List.mem_append]
    exact Or.inr (Or.inl hl)
  · intro l hl
    obtain ⟨P, Q, hPQ, hQ⟩ := mem_dropLast_split hl
    refine hgood.2 l ?_
    have : L = (A ++ P) ++ l :: (Q ++ B) := by
      rw [hseg, hPQ]
      simp
    rw [this]
    exact mem_dropLast_of_append (A ++ P) l (Q ++ B) (by simp [hQ])

theorem chunk_reconstruct {L : List (List Nat)} {chLs : List (List (List Nat))}
    {tailL : List (List Nat)}
    (hgood : goodLines L) (hflat : chLs.flatten ++ tailL = L) :
    ∀ g ∈ chLs, splitLines g.flatten = g := by
  intro g hg
  obtain ⟨P, Q, hPQ⟩ := List.append_of_mem hg
  have hseg : L = P.flatten ++ g ++ (Q.flatten ++ tailL) := by
    rw [← hflat, hPQ]
    simp
  obtain ⟨hwf, hcl⟩ := goodLines_segment hgood hseg
  exact splitLines_flatten_eq g hwf hcl

/-! Token lemmas. -/

theorem toks_append (a b : List (List Nat)) : toks (a ++ b) = toks a ++ toks b := by
  simp [toks]

theorem toks_cons (l : List Nat) (ls : List (List Nat)) :
    toks (l :: ls) = firstWord l :: toks ls := by
  simp [toks]

theorem tokDisj_of_sub {g X Y : List (List Nat)} (h : tokDisj g Y)
    (hs : ∀ t ∈ toks X, t ∈ toks Y) : tokDisj g X :=
  fun t ht hmem => h t ht (hs t hmem)

theorem tokensGrouped_suffix :
    ∀ (a b : List (List Nat)), tokensGrouped (a ++ b) = true → tokensGrouped b = true := by
  intro a
  induction a with
  | nil => intro b h; simpa using h
  | cons x a ih =>
    intro b h
    simp only [List.cons_append, tokensGrouped, Bool.and_eq_true] at h
    exact ih b h.2

theorem tokensGrouped_replicate_not_mem :
    ∀ (k : Nat) (p u : List Nat) (R : List (List Nat)), 1 ≤ k → u ≠ p →
      tokensGrouped (List.replicate k p ++ u :: R) = true → p ∉ u :: R := by
  intro k
  induction k with
  | zero => intro p u R hk; omega
  | succ k ih =>
    intro p u R _ hu h
    rcases Nat.lt_or_ge 0 k with hk2 | hk1
    · have hk : 1 ≤ k := by omega
      simp only [List.replicate_succ, List.cons_append, tokensGrouped,
        Bool.and_eq_true] at h
      exact ih p u R hk hu h.2
    · have hk0 : k = 0 := by omega
      subst hk0
      have h' : tokensGrouped (p :: u :: R) = true := by simpa using h
      simp only [tokensGrouped, Bool.and_eq_true] at h'
      have hdw : List.dropWhile (fun t => t == p) (u :: R) = u :: R := by
        rw [List.dropWhile_cons]
        simp [hu]
      rw [hdw] at h'
      simpa using h'.1

theorem tokDisj_left {g X Y : List (List Nat)} (h : tokDisj g (X ++ Y)) : tokDisj g X :=
  tokDisj_of_sub h fun t ht => by
    rw [toks_append]
    exact List.mem_append_left _ ht

theorem tokDisj_right {g X Y : List (List Nat)} (h : tokDisj g (X ++ Y)) : tokDisj g Y :=
  tokDisj_of_sub h fun t ht => by
    rw [toks_append]
    exact List.mem_append_right _ ht

theorem tokDisj_append_right {g X Y : List (List Nat)} (h1 : tokDisj g X)
    (h2 : tokDisj g Y) : tokDisj g (X ++ Y) := by
  intro t ht hmem
  rw [toks_append, List.mem_append] at hmem
  rcases hmem with hmem | hmem
  · exact h1 t ht hmem
  · exact h2 t ht hmem

theorem tokDisj_append_left {X Y g : List (List Nat)} (h1 : tokDisj X g)
    (h2 : tokDisj Y g) : tokDisj (X ++ Y) g := by
  intro t ht hmem
  rw [toks_append, List.mem_append] at ht
  rcases ht with ht | ht
  · exact h1 t ht hmem
  · exact h2 t ht hmem

theorem toks_all_eq {pbL : List (List Nat)} {p : List Nat}
    (hall : ∀ l ∈ pbL, firstWord l = p) : ∀ t ∈ toks pbL, t = p := by
  intro t ht
  simp only [toks, List.mem_map] at ht
  obtain ⟨l, hl, rfl⟩ := ht
  exact hall l hl

theorem pfx_not_in_rest {pbL : List (List Nat)} {p line : List Nat}
    {rest : List (List Nat)} (hpb : pbL ≠ []) (hall : ∀ l ∈ pbL, firstWord l = p)
    (hfw : firstWord line ≠ p)
    (h8 : tokensGrouped (toks (pbL ++ line :: rest)) = true) :
    p ∉ toks (line :: rest) := by
  have hrep : toks pbL = List.replicate pbL.length p := by
    refine List.eq_replicate_iff.mpr ⟨by simp [toks], toks_all_eq hall⟩
  rw [toks_append, hrep, toks_cons] at h8
  have hk : 1 ≤ pbL.length := by
    cases pbL with
    | nil => exact absurd rfl hpb
    | cons _ _ => simp
  have := tokensGrouped_replicate_not_mem pbL.length p (firstWord line) (toks rest)
    hk hfw h8
  rw [toks_cons]
  exact this

theorem eq_nil_of_flatten_nil {ccL : List (List Nat)} (hwf : ∀ l ∈ ccL, l ≠ [])
    (h : ccL.flatten = []) : ccL = [] := by
  cases ccL with
  | nil => rfl
  | cons l ls =>
    simp only [List.flatten_cons, List.append_eq_nil] at h
    exact absurd h.1 (hwf l (by simp))

theorem pairwise_snoc {chLs : List (List (List Nat))} {g : List (List Nat)}
    (h5 : List.Pairwise tokDisj chLs) (hx : ∀ x ∈ chLs, tokDisj x g) :
    List.Pairwise tokDisj (chLs ++ [g]) := by
  rw [List.pairwise_append]
  refine ⟨h5, List.pairwise_singleton _ _, ?_⟩
  intro a ha b hb
  rcases List.mem_singleton.mp hb with rfl
  exact hx a ha

theorem wcc_chunks_map (cb : Nat → Nat → Bool) {s : GState}
    {chLs : List (List (List Nat))} {ccL : List (List Nat)}
    (h1 : s.chunks.map Prod.snd = chLs.map List.flatten)
    (h2 : s.current_chunk = ccL.flatten)
    (hcc : ¬s.current_chunk.isEmpty = true) :
    (write_current_chunk cb s).chunks.map Prod.snd = (chLs ++ [ccL]).map List.flatten := by
  unfold write_current_chunk
  rw [if_neg hcc]
  simp [h1, h2]

/-! The central invariant: under a grouped (sorted) input, the chunk files
decompose into line lists with pairwise disjoint leading-token sets. -/

theorem splitLoop_tok_disjoint (cb : Nat → Nat → Bool) (maxsize : Nat)
    (L₀ : List (List Nat)) (hgood : goodLines L₀) :
    ∀ (lines : List (List Nat)) (s : GState) (chLs : List (List (List Nat)))
      (ccL pbL : List (List Nat)),
      s.chunks.map Prod.snd = chLs.map List.flatten →
      s.current_chunk = ccL.flatten →
      s.pfx_buffer = pbL.flatten →
      chLs.flatten ++ ccL ++ pbL ++ lines = L₀ →
      List.Pairwise tokDisj chLs →
      (∀ g ∈ chLs, tokDisj g (ccL ++ pbL ++ lines)) →
      tokDisj ccL (pbL ++ lines) →
      tokensGrouped (toks (pbL ++ lines)) = true →
      (∀ p, s.current_pfx = some p → pbL ≠ [] ∧ ∀ l ∈ pbL, firstWord l = p) →
      (s.current_pfx = none → pbL = []) →
      ∃ chLs' : List (List (List Nat)),
        (splitLoop cb maxsize lines s).chunks.map Prod.snd = chLs'.map List.flatten ∧
        List.Pairwise tokDisj chLs' ∧
        ∃ tailL, chLs'.flatten ++ tailL = L₀ := by
  intro lines
  induction lines with
  | nil =>
    intro s chLs ccL pbL h1 h2 h3 h4 h5 h6 h7 h8 h9 h10
    have hpbne : ∀ l ∈ pbL, l ≠ [] := by
      intro l hl
      refine (hgood.1 l ?_).1
      rw [← h4]
      simp only [List.append_assoc, List.mem_append]
      tauto
    have hccne : ∀ l ∈ ccL, l ≠ [] := by
      intro l hl
      refine (hgood.1 l ?_).1
      rw [← h4]
      simp only [List.append_assoc, List.mem_append]
      tauto
    by_cases hterm : s.terminate
    · refine ⟨chLs, ?_, h5, ccL ++ pbL, ?_⟩
      · simpa [splitLoop, hterm] using h1
      · simpa using h4
    by_cases hpb : s.pfx_buffer.isEmpty
    · have hpbnil : pbL = [] :=
        eq_nil_of_flatten_nil hpbne (by rw [← h3]; exact List.isEmpty_iff.mp hpb)
      by_cases hcc : s.current_chunk.isEmpty
      · refine ⟨chLs, ?_, h5, ccL ++ pbL, ?_⟩
        · simp only [splitLoop, hterm, Bool.false_eq_true, if_false, hpb, if_true]
          rw [wcc_eq_of_empty cb hcc]
          exact h1
        · simpa using h4
      · refine ⟨chLs ++ [ccL], ?_, ?_, pbL, ?_⟩
        · simp only [splitLoop, hterm, Bool.false_eq_true, if_false, hpb, if_true]
          exact wcc_chunks_map cb h1 h2 hcc
        · refine pairwise_snoc h5 fun x hx => tokDisj_left (tokDisj_left (h6 x hx))
        · rw [List.flatten_append]
          simpa using h4
    by_cases hgt : s.pfx_buffer.length > maxsize
    · refine ⟨chLs, ?_, h5, ccL ++ pbL, ?_⟩
      · simpa [splitLoop, hterm, hpb, hgt] using h1
      · simpa using h4
    have hpbnil : pbL ≠ [] := by
      intro hnil
      rw [hnil] at h3
      simp only [List.flatten_nil] at h3
      rw [h3] at hpb
      simp at hpb
    by_cases hflush : s.current_size + s.pfx_buffer.length > maxsize
    · by_cases hcc : s.current_chunk.isEmpty
      · have hccnil : ccL = [] :=
          eq_nil_of_flatten_nil hccne (by rw [← h2]; exact List.isEmpty_iff.mp hcc)
        refine ⟨chLs ++ [ccL ++ pbL], ?_, ?_, [], ?_⟩
        · simp only [splitLoop, hterm, Bool.false_eq_true, if_false, hpb, hgt, hflush,
            if_true]
          rw [wcc_eq_of_empty cb hcc]
          refine wcc_chunks_map cb ?_ ?_ ?_
          · exact h1
          · simp [h2, h3]
          · intro hem
            simp only [List.isEmpty_iff, List.append_eq_nil] at hem
            rw [hem.2] at hpb
            simp at hpb
        · refine pairwise_snoc h5 fun x hx => tokDisj_left (h6 x hx)
        · rw [List.flatten_append]
          simpa using h4
      · refine ⟨(chLs ++ [ccL]) ++ [pbL], ?_, ?_, [], ?_⟩
        · simp only [splitLoop, hterm, Bool.false_eq_true, if_false, hpb, hgt, hflush,
            if_true]
          refine wcc_chunks_map cb ?_ ?_ ?_
          · exact wcc_chunks_map cb h1 h2 hcc
          · rw [wcc_current_chunk]
            simp [h3]
          · rw [wcc_current_chunk]
            intro hem
            simp only [List.isEmpty_iff, List.nil_append] at hem
            rw [hem] at hpb
            simp at hpb
        · refine pairwise_snoc (pairwise_snoc h5 fun x hx => tokDisj_left (tokDisj_left (h6 x hx))) ?_
          intro x hx
          rcases List.mem_append.mp hx with hx | hx
          · exact tokDisj_right (tokDisj_left (h6 x hx))
          · rcases List.mem_singleton.mp hx with rfl
            exact tokDisj_left h7
        · simp only [List.flatten_append]
          simpa using h4
    · refine ⟨chLs ++ [ccL ++ pbL], ?_, ?_, [], ?_⟩
      · simp only [splitLoop, hterm, Bool.false_eq_true, if_false, hpb, hgt, hflush,
          if_true]
        refine wcc_chunks_map cb ?_ ?_ ?_
        · exact h1
        · simp [h2, h3]
        · intro hem
          simp only [List.isEmpty_iff, List.append_eq_nil] at hem
          rw [hem.2] at hpb
          simp at hpb
      · refine pairwise_snoc h5 fun x hx => tokDisj_left (h6 x hx)
      · rw [List.flatten_append]
        simpa using h4
  | cons line rest ih =>
    intro s chLs ccL pbL h1 h2 h3 h4 h5 h6 h7 h8 h9 h10
    have hpbne : ∀ l ∈ pbL, l ≠ [] := by
      intro l hl
      refine (hgood.1 l ?_).1
      rw [← h4]
      simp only [List.append_assoc, List.mem_append]
      tauto
    by_cases hterm : s.terminate
    · refine ⟨chLs, ?_, h5, ccL ++ pbL ++ (line :: rest), ?_⟩
      · simpa [splitLoop, hterm] using h1
      · simpa using h4
    rcases hp : s.current_pfx with _ | p
    · have hpbnil : pbL = [] := h10 hp
      subst hpbnil
      simp only [List.flatten_nil] at h3
      simp only [splitLoop, hterm, Bool.false_eq_true, if_false, hp]
      refine ih _ chLs ccL [line] ?_ ?_ ?_ ?_ h5 ?_ ?_ ?_ ?_ ?_
      · exact h1
      · exact h2
      · simp [h3]
      · simpa using h4
      · intro g hg
        have := h6 g hg
        simpa using this
      · simpa using h7
      · simpa using h8
      · intro q hq
        simp only [Option.some.injEq] at hq
        refine ⟨by simp, ?_⟩
        intro l hl
        rcases List.mem_singleton.mp hl with rfl
        exact hq.symm ▸ rfl
      · intro hq
        simp at hq
    obtain ⟨hpbnil, hall⟩ := h9 p hp
    by_cases hfw : firstWord line == p
    · have hfww : firstWord line = p := by simpa using hfw
      simp only [splitLoop, hterm, Bool.false_eq_true, if_false, hp, hfw, if_true]
      refine ih _ chLs ccL (pbL ++ [line]) ?_ ?_ ?_ ?_ h5 ?_ ?_ ?_ ?_ ?_
      · exact h1
      · exact h2
      · simp [h3]
      · simpa using h4
      · intro g hg
        have heq : ccL ++ (pbL ++ [line]) ++ rest = ccL ++ pbL ++ (line :: rest) := by
          simp
        rw [heq]
        exact h6 g hg
      · have heq : (pbL ++ [line]) ++ rest = pbL ++ (line :: rest) := by simp
        rw [heq]
        exact h7
      · have heq : (pbL ++ [line]) ++ rest = pbL ++ (line :: rest) := by simp
        rw [heq]
        exact h8
      · intro q hq
        simp only [Option.some.injEq] at hq
        subst hq
        refine ⟨by simp, ?_⟩
        intro l hl
        rcases List.mem_append.mp hl with hl | hl
        · exact hall l hl
        · rcases List.mem_singleton.mp hl with rfl
          exact hfww
      · intro hq
        simp at hq
    by_cases hgt : s.pfx_buffer.length > maxsize
    · refine ⟨chLs, ?_, h5, ccL ++ pbL ++ (line :: rest), ?_⟩
      · simpa [splitLoop, hterm, hp, hfw, hgt] using h1
      · simpa using h4
    have hfww : firstWord line ≠ p := by simpa using hfw
    have hpnot : p ∉ toks (line :: rest) := by
      refine pfx_not_in_rest hpbnil hall hfww ?_
      exact h8
    by_cases hflush : s.current_size + s.pfx_buffer.length > maxsize
    · by_cases hcc : s.current_chunk.isEmpty
      · have hccne : ∀ l ∈ ccL, l ≠ [] := by
          intro l hl
          refine (hgood.1 l ?_).1
          rw [← h4]
          simp only [List.append_assoc, List.mem_append]
          tauto
        have hccnil : ccL = [] :=
          eq_nil_of_flatten_nil hccne (by rw [← h2]; exact List.isEmpty_iff.mp hcc)
        subst hccnil
        simp only [List.flatten_nil] at h2
        simp only [splitLoop, hterm, Bool.false_eq_true, if_false, hp, hfw, hgt, hflush,
          if_true]
        rw [wcc_eq_of_empty cb hcc]
        refine ih _ chLs pbL [line] ?_ ?_ ?_ ?_ h5 ?_ ?_ ?_ ?_ ?_
        · exact h1
        · simp [h2, h3]
        · simp
        · simpa using h4
        · intro g hg
          have hthis := h6 g hg
          simp only [List.nil_append] at hthis
          have heq : pbL ++ [line] ++ rest = pbL ++ (line :: rest) := by simp
          rw [heq]
          exact hthis
        · have heq : [line] ++ rest = line :: rest := by simp
          rw [heq]
          intro t ht
          have := toks_all_eq hall t ht
          subst this
          exact hpnot
        · refine tokensGrouped_suffix (toks pbL) _ ?_
          rw [← toks_append]
          have heq : pbL ++ ([line] ++ rest) = pbL ++ (line :: rest) := by simp
          rw [heq]
          exact h8
        · intro q hq
          simp only [Option.some.injEq] at hq
          subst hq
          refine ⟨by simp, ?_⟩
          intro l hl
          rcases List.mem_singleton.mp hl with rfl
          rfl
        · intro hq
          simp at hq
      · simp only [splitLoop, hterm, Bool.false_eq_true, if_false, hp, hfw, hgt, hflush,
          if_true]
        refine ih _ (chLs ++ [ccL]) pbL [line] ?_ ?_ ?_ ?_ ?_ ?_ ?_ ?_ ?_ ?_
        · exact wcc_chunks_map cb h1 h2 hcc
        · rw [wcc_current_chunk]
          simp [h3]
        · simp
        · rw [List.flatten_append]
          simpa using h4
        · exact pairwise_snoc h5 fun x hx => tokDisj_left (tokDisj_left (h6 x hx))
        · intro g hg
          have heq : pbL ++ [line] ++ rest = pbL ++ (line :: rest) := by simp
          rw [heq]
          rcases List.mem_append.mp hg with hg | hg
          · exact tokDisj_append_right (tokDisj_right (tokDisj_left (h6 g hg)))
              (tokDisj_right (h6 g hg))
          · rcases List.mem_singleton.mp hg with rfl
            exact h7
        · have heq : [line] ++ rest = line :: rest := by simp
          rw [heq]
          intro t ht
          have := toks_all_eq hall t ht
          subst this
          exact hpnot
        · refine tokensGrouped_suffix (toks pbL) _ ?_
          rw [← toks_append]
          have heq : pbL ++ ([line] ++ rest) = pbL ++ (line :: rest) := by simp
          rw [heq]
          exact h8
        · intro q hq
          simp only [Option.some.injEq] at hq
          subst hq
          refine ⟨by simp, ?_⟩
          intro l hl
          rcases List.mem_singleton.mp hl with rfl
          rfl
        · intro hq
          simp at hq
    · simp only [splitLoop, hterm, Bool.false_eq_true, if_false, hp, hfw, hgt, hflush,
        if_true]
      refine ih _ chLs (ccL ++ pbL) [line] ?_ ?_ ?_ ?_ h5 ?_ ?_ ?_ ?_ ?_
      · exact h1
      · simp [h2, h3]
      · simp
      · simpa using h4
      · intro g hg
        have heq : (ccL ++ pbL) ++ [line] ++ rest = ccL ++ pbL ++ (line :: rest) := by
          simp
        rw [heq]
        exact h6 g hg
      · have heq : [line] ++ rest = line :: rest := by simp
        rw [heq]
        refine tokDisj_append_left ?_ ?_
        · exact tokDisj_right (tokDisj_of_sub h7 fun t ht => by
            rw [toks_append] at ht ⊢
            exact ht)
        · intro t ht
          have := toks_all_eq hall t ht
          subst this
          exact hpnot
      · refine tokensGrouped_suffix (toks pbL) _ ?_
        rw [← toks_append]
        have heq : pbL ++ ([line] ++ rest) = pbL ++ (line :: rest) := by simp
        rw [heq]
        exact h8
      · intro q hq
        simp only [Option.some.injEq] at hq
        subst hq
        refine ⟨by simp, ?_⟩
        intro l hl
        rcases List.mem_singleton.mp hl with rfl
        rfl
      · intro hq
        simp at hq

/-! Transfer of the token-disjointness invariant to the chunk files. -/

theorem pairwise_tokDisj_transfer :
    ∀ (cs : List (Nat × List Nat)) (chLs : List (List (List Nat))),
      cs.map Prod.snd = chLs.map List.flatten →
      List.Pairwise tokDisj chLs →
      (∀ g ∈ chLs, splitLines g.flatten = g) →
      chunksTokDisjoint cs := by
  intro cs
  induction cs with
  | nil => intro chLs _ _ _; exact List.Pairwise.nil
  | cons c cs ih =>
    intro chLs hmap hpw hrec
    cases chLs with
    | nil => simp at hmap
    | cons g chLs =>
      simp only [List.map_cons, List.cons.injEq] at hmap
      obtain ⟨hc, hcs⟩ := hmap
      rcases hpw with _ | ⟨hg, hpw'⟩
      refine List.Pairwise.cons ?_ (ih chLs hcs hpw' fun x hx => hrec x (by simp [hx]))
      intro d hd
      have hdm : d.2 ∈ cs.map Prod.snd := List.mem_map_of_mem Prod.snd hd
      rw [hcs] at hdm
      obtain ⟨hh, hhm, hd2⟩ := List.mem_map.mp hdm
      intro t ht hmem
      have hct : chunkTokens c.2 = toks g := by
        rw [hc]
        unfold chunkTokens
        rw [hrec g (by simp)]
        rfl
      have hdt : chunkTokens d.2 = toks hh := by
        rw [← hd2]
        unfold chunkTokens
        rw [hrec hh (by simp [hhm])]
        rfl
      rw [hct] at ht
      rw [hdt] at hmem
      exact hg hh hhm t ht hmem

/-- C1: the grouped-prefix splitter is claimed to number its emitted
chunks consecutively starting at a caller-supplied start ordinal.  The
code has no such parameter: `bygroupedprefix` initialises `splitnum = 1`
unconditionally, so for every budget, callback and input the emitted
ordinals are exactly 1, 2, 3, ... — the numbering cannot start anywhere
else, and the plugin's call `bygroupedprefix(maxsize=..., splitnum=...,
callback=...)` does not match the method's signature. -/
theorem c1_numbering_hardwired_to_one (maxsize : Nat) (cb : Nat → Nat → Bool)
    (input : List Nat) :
    (bygroupedpfx maxsize cb input).chunks.map Prod.fst =
      List.range' 1 (bygroupedpfx maxsize cb input).chunks.length :=
  splitLoop_ordinals cb maxsize (splitLines input) initGState rfl rfl

/-- C2: for every input, budget and callback, when a grouped-prefix run
completes (neither an overflow error nor a cancellation), concatenating
the emitted chunk files in ordinal (flush) order reproduces the input
byte-for-byte. -/
theorem c2_concatenation (maxsize : Nat) (cb : Nat → Nat → Bool) (input : List Nat)
    (r : GResult) (hr : bygroupedpfx maxsize cb input = r)
    (hc : r.outcome = SplitOutcome.completed) :
    (r.chunks.map Prod.snd).flatten = input := by
  subst hr
  have h := splitLoop_completed_emitted cb maxsize (splitLines input) initGState hc
  simpa [emitted, initGState, splitLines_flatten, bygroupedpfx] using h

/-- Witness for C2 at a concrete input. -/
theorem c2_concatenation_witness :
    ((bygroupedpfx 5 cbNone [65, 10]).chunks.map Prod.snd).flatten = [65, 10] :=
  c2_concatenation 5 cbNone [65, 10] (bygroupedpfx 5 cbNone [65, 10]) rfl rfl

/-- C3: every chunk file flushed by the grouped-prefix splitter has byte
size at most the `maxsize` budget (this holds for every outcome: an
oversized group raises the overflow error before it is ever written). -/
theorem c3_chunk_size_bound (maxsize : Nat) (cb : Nat → Nat → Bool) (input : List Nat) :
    ∀ c ∈ (bygroupedpfx maxsize cb input).chunks, c.2.length ≤ maxsize := by
  refine splitLoop_chunk_sizes cb maxsize (splitLines input) initGState ?_ ?_ rfl
  · intro c hc
    simp [initGState] at hc
  · simp [initGState]

/-- Witness for C3 at a concrete input. -/
theorem c3_chunk_size_bound_witness : ((1 : Nat), [65, 10]).2.length ≤ 5 :=
  c3_chunk_size_bound 5 cbNone [65, 10] (1, [65, 10]) (by decide)

/-- C4 (counterexample): the same leading token may appear in two
different chunk files when it occurs in non-consecutive runs of the
input.  On the input "A a\nB bbbbbb\nA c\n" with budget 10 the run
completes with three chunks, and token "A" appears in both the first and
the third. -/
theorem c4_shared_token_cex :
    ¬chunksTokDisjoint (bygroupedpfx 10 cbNone
      [65, 32, 97, 10, 66, 32, 98, 98, 98, 98, 98, 98, 10, 65, 32, 99, 10]).chunks := by
  unfold chunksTokDisjoint
  decide

/-- C4 (amended): for every input whose equal-leading-token lines are
consecutive (the sorted-input shape the plugin documents as its
assumption), no leading-token value appears in two different emitted
chunk files, whatever the budget and callback. -/
theorem c4_group_atomicity (maxsize : Nat) (cb : Nat → Nat → Bool) (input : List Nat)
    (hsorted : tokensGrouped (toks (splitLines input)) = true) :
    chunksTokDisjoint (bygroupedpfx maxsize cb input).chunks := by
  obtain ⟨chLs', hmap, hpw, tailL, htail⟩ :=
    splitLoop_tok_disjoint cb maxsize (splitLines input) (splitLines_good input)
      (splitLines input) initGState [] [] [] rfl rfl rfl (by simp) (by simp)
      (by simp) (fun t ht => by simp [toks] at ht) (by simpa using hsorted)
      (fun p hp => by simp [initGState] at hp) (fun _ => rfl)
  exact pairwise_tokDisj_transfer _ chLs' hmap hpw
    (chunk_reconstruct (splitLines_good input) htail)

/-- Witness for C4 (amended) at a concrete sorted input. -/
theorem c4_group_atomicity_witness :
    chunksTokDisjoint (bygroupedpfx 4 cbNone [65, 32, 97, 10, 66, 32, 98, 10]).chunks :=
  c4_group_atomicity 4 cbNone [65, 32, 97, 10, 66, 32, 98, 10] (by decide)

/-- C5 (counterexample): the grouping-overflow exception does not carry
the measured group size or the budget.  Two runs with different budgets
(5 vs 9) and different offending group sizes (7 vs 11 bytes) raise
identical errors, and the end-of-stream variant does not even carry the
offending prefix. -/
theorem c5_overflow_error_payload_cex :
    bygroupedpfx 5 cbNone [65, 32, 97, 97, 97, 97, 10, 66, 10] =
      ⟨[], SplitOutcome.overflowMid [65]⟩ ∧
    bygroupedpfx 9 cbNone [65, 32, 97, 97, 97, 97, 97, 97, 97, 97, 10, 66, 10] =
      ⟨[], SplitOutcome.overflowMid [65]⟩ ∧
    bygroupedpfx 5 cbNone [65, 32, 97, 97, 97, 97, 10] =
      ⟨[], SplitOutcome.overflowLast⟩ ∧
    (5 : Nat) ≠ 9 :=
  ⟨rfl, rfl, rfl, by decide⟩

/-- C5 (amended): whenever some group of the input exceeds the budget, an
uncancelled grouped-prefix run aborts with a `ValueError` — the
mid-stream variant carrying the offending prefix, or the end-of-stream
variant carrying nothing; it never reports the measured size or the
budget.  Chunks flushed before the error remain on disk (the result's
chunk list is exactly the flushed files). -/
theorem c5_overflow_aborts (maxsize : Nat) (input : List Nat)
    (hover : ∃ g ∈ lineGroups (splitLines input), maxsize < g.flatten.length) :
    (∃ q, (bygroupedpfx maxsize cbNone input).outcome = SplitOutcome.overflowMid q) ∨
      (bygroupedpfx maxsize cbNone input).outcome = SplitOutcome.overflowLast := by
  rcases hout : (bygroupedpfx maxsize cbNone input).outcome with _ | _ | q | _
  · exfalso
    have h := splitLoop_completed_groups cbNone maxsize (splitLines input) initGState
      (by simpa [bygroupedpfx] using hout)
    obtain ⟨g, hg, hlen⟩ := hover
    have := h.2 rfl g hg
    omega
  · refine absurd hout ?_
    have := splitLoop_cbNone_not_cancelled maxsize (splitLines input) initGState rfl
    simpa [bygroupedpfx] using this
  · exact Or.inl ⟨q, rfl⟩
  · exact Or.inr rfl

/-- Witness for C5 (amended): budget 3, first group 7 bytes. -/
theorem c5_overflow_aborts_witness :
    (∃ q, (bygroupedpfx 3 cbNone [65, 32, 97, 97, 97, 97, 10, 66, 10]).outcome =
      SplitOutcome.overflowMid q) ∨
      (bygroupedpfx 3 cbNone [65, 32, 97, 97, 97, 97, 10, 66, 10]).outcome =
        SplitOutcome.overflowLast :=
  c5_overflow_aborts 3 [65, 32, 97, 97, 97, 97, 10, 66, 10] (by decide)

/-- C6 (counterexample): blank lines are not skipped.  On the input
"A a\n" ++ "\n" ++ "A b\n" with budget 4, the blank line closes the open
"A" group (forming its own empty-token group), so the run completes with
three chunks and the two "A" lines end up in different chunks; under the
claimed skip-blank semantics the two "A" lines would form one indivisible
8-byte group, which cannot fit any 4-byte chunk. -/
theorem c6_blank_line_cex :
    bygroupedpfx 4 cbNone [65, 32, 97, 10, 10, 65, 32, 98, 10] =
      ⟨[(1, [65, 32, 97, 10]), (2, [10]), (3, [65, 32, 98, 10])],
        SplitOutcome.completed⟩ ∧
    lineGroups (splitLines [65, 32, 97, 10, 10, 65, 32, 98, 10]) =
      [[[65, 32, 97, 10]], [[10]], [[65, 32, 98, 10]]] ∧
    firstWord [10] = [] ∧
    chunkTokens [65, 32, 97, 10] = [[65]] ∧ chunkTokens [65, 32, 98, 10] = [[65]] :=
  ⟨rfl, rfl, rfl, rfl, rfl⟩

/-- C6 (amended): a blank (empty or whitespace-only) line is treated as a
line whose leading token is the empty byte string; it is not skipped — a
blank line directly after a line with a nonempty token closes that line's
group and opens a new (empty-token) group. -/
theorem c6_blank_line_breaks_group (l m : List Nat) (ls : List (List Nat))
    (hblank : l.all isSpace = true) (hm : firstWord m ≠ []) :
    firstWord l = [] ∧ lineGroups (m :: l :: ls) = [m] :: lineGroups (l :: ls) := by
  have hfl : firstWord l = [] := by simp [firstWord, hblank]
  refine ⟨hfl, ?_⟩
  rw [lineGroups_cons]
  have hne : (firstWord l == firstWord m) = false := by
    simp only [hfl]
    exact beq_eq_false_iff_ne.mpr fun h => hm h.symm
  rw [List.takeWhile_cons, List.dropWhile_cons]
  simp [hne]

/-- Witness for C6 (amended) at a concrete blank line. -/
theorem c6_blank_line_breaks_group_witness :
    firstWord [10] = [] ∧
      lineGroups [[65, 32, 10], [10]] = [[[65, 32, 10]]] ++ lineGroups [[10]] :=
  c6_blank_line_breaks_group [10] [65, 32, 10] [] (by decide) (by decide)

/-- C7: a missing input path fails with the not-found error and an empty
(zero-length) input fails with the empty-input error; both are raised by
`execute_split` before the splitter is invoked, so no chunk file is
produced. -/
theorem c7_input_checks (maxsize : Nat) (cb : Nat → Nat → Bool) :
    execute_split none maxsize cb = Except.error RunError.notFound ∧
      execute_split (some []) maxsize cb = Except.error RunError.emptyInput :=
  ⟨rfl, rfl⟩

/-- C8 (counterexample): a terminate flag set from within the per-chunk
callback does not always stop further flushes.  With a callback that sets
the flag at the very first flush, the end-of-stream handling of
"A a\nB b\n" under budget 4 still flushes a second chunk after the flag
was set during the first chunk's callback. -/
theorem c8_terminate_flag_cex :
    bygroupedpfx 4 cbStop [65, 32, 97, 10, 66, 32, 98, 10] =
      ⟨[(1, [65, 32, 97, 10]), (2, [66, 32, 98, 10])], SplitOutcome.completed⟩ ∧
    cbStop 1 4 = true :=
  ⟨rfl, rfl⟩

/-- C8 (amended): the terminate flag is polled at the start of each line
iteration; a run that stops as cancelled discards its buffered
not-yet-flushed group and chunk, and the chunks already flushed remain on
disk, their concatenation being a prefix of the input.  (At end of input,
however, the final-group handling flushes its chunks even if the flag was
set during one of its callbacks.) -/
theorem c8_cancelled_prefix (maxsize : Nat) (cb : Nat → Nat → Bool) (input : List Nat)
    (r : GResult) (hr : bygroupedpfx maxsize cb input = r)
    (hc : r.outcome = SplitOutcome.cancelled) :
    ∃ rem, (r.chunks.map Prod.snd).flatten ++ rem = input := by
  subst hr
  obtain ⟨tailB, htail⟩ := splitLoop_emitted_leads cb maxsize (splitLines input) initGState
  refine ⟨tailB, ?_⟩
  simpa [emitted, initGState, splitLines_flatten, bygroupedpfx] using htail

/-- Witness for C8 (amended) at a concrete cancelled run. -/
theorem c8_cancelled_prefix_witness :
    ∃ rem, ((bygroupedpfx 4 cbStop
      [65, 32, 97, 10, 66, 32, 98, 10, 67, 32, 99, 10]).chunks.map
        Prod.snd).flatten ++ rem = [65, 32, 97, 10, 66, 32, 98, 10, 67, 32, 99, 10] :=
  c8_cancelled_prefix 4 cbStop [65, 32, 97, 10, 66, 32, 98, 10, 67, 32, 99, 10]
    (bygroupedpfx 4 cbStop [65, 32, 97, 10, 66, 32, 98, 10, 67, 32, 99, 10]) rfl rfl

/-- C9: combining group-by-prefix with header-inclusion, or group-by-prefix
with line-count mode, makes `SplitFilePlugin.__init__` raise a
`ValueError` — the constructor fails for every such configuration, so no
configured plugin object (and hence no I/O-performing run) is created. -/
theorem c9_group_mode_exclusions (filename_ok : Bool) (chunk_size : ℚ)
    (size_unit : SizeUnit) (include_header use_directory ppok ppdir ctne ctok : Bool)
    (h : include_header = true ∨ size_unit = SizeUnit.lines) :
    ∃ f, pluginInit filename_ok chunk_size size_unit true include_header use_directory
      ppok ppdir ctne ctok = Except.error f := by
  have hmem : pluginInitErrors filename_ok chunk_size size_unit true include_header
      use_directory ppok ppdir ≠ [] := by
    rcases h with h | h
    · have hin : CfgError.groupHeader ∈ pluginInitErrors filename_ok chunk_size
          size_unit true include_header use_directory ppok ppdir := by
        unfold pluginInitErrors
        simp [h]
      exact List.ne_nil_of_mem hin
    · have hin : CfgError.groupLines ∈ pluginInitErrors filename_ok chunk_size
          size_unit true include_header use_directory ppok ppdir := by
        unfold pluginInitErrors
        simp [h]
      exact List.ne_nil_of_mem hin
  unfold pluginInit
  by_cases hct : use_directory ∧ ctne ∧ ¬ctok
  · exact ⟨.customTarget, by rw [if_pos hct]⟩
  · rw [if_neg hct, if_neg (by simpa [List.isEmpty_iff] using hmem)]
    exact ⟨_, rfl⟩

/-- Witness for C9 at a concrete configuration (group-by-prefix with
header-inclusion). -/
theorem c9_group_mode_exclusions_witness :
    ∃ f, pluginInit true 2048 SizeUnit.kb true true true true true false true =
      Except.error f :=
  c9_group_mode_exclusions true 2048 SizeUnit.kb true true true true false true
    (Or.inl rfl)

/-! Linking the float model's finite branch to the exact rational model. -/

theorem ratMulNat_eq (q : ℚ) (k : ℕ) : ratMulNat q k = q * k := by
  unfold ratMulNat
  rw [Rat.divInt_eq_div]
  push_cast
  calc ((q.num : ℚ) * k) / q.den = ((q.num : ℚ) / q.den) * k := by ring
  _ = q * k := by rw [Rat.num_div_den]

theorem pyMulPow2_finite {q s : ℚ} {k : ℕ}
    (h : pyMulPow2 (PyFloat.finite q) k = PyFloat.finite s) : s = q * k := by
  rw [show pyMulPow2 (PyFloat.finite q) k =
      (if FLOAT_MAX < ratAbs (ratMulNat q k) then
        (if 0 ≤ q then PyFloat.inf else PyFloat.neginf)
      else PyFloat.finite (ratMulNat q k)) from rfl] at h
  by_cases hov : FLOAT_MAX < ratAbs (ratMulNat q k)
  · rw [if_pos hov] at h
    by_cases hq : 0 ≤ q
    · rw [if_pos hq] at h
      exact absurd h (by simp)
    · rw [if_neg hq] at h
      exact absurd h (by simp)
  · rw [if_neg hov] at h
    rw [← ratMulNat_eq]
    exact (PyFloat.finite.inj h).symm

theorem scaledChunkSizeFloat_finite {q s : ℚ} {u : SizeUnit}
    (h : scaledChunkSizeFloat (PyFloat.finite q) u = PyFloat.finite s) :
    s = scaledChunkSize q u := by
  rcases u
  · have := pyMulPow2_finite h
    simpa [scaledChunkSize] using this
  · have := pyMulPow2_finite h
    rw [this]
    unfold scaledChunkSize
    norm_num
  · have := pyMulPow2_finite h
    rw [this]
    unfold scaledChunkSize
    norm_num
  · simpa [scaledChunkSizeFloat, scaledChunkSize] using h.symm
  · simpa [scaledChunkSizeFloat, scaledChunkSize] using h.symm

/-- C10 (counterexample): over the full float domain the claimed
equivalence fails.  With chunk size NaN and unit KB, validation passes
(`nan < 1024` is false, so the scaled size is not below 1024 bytes) and
the constructor still raises a `ValueError` — from `int(nan)` at line
196.  With chunk size `sys.float_info.max` (the largest finite double)
and unit GB the scaling overflows to infinity; the scaled size is again
not below 1024, yet the value is not accepted: `int(inf)` raises
`OverflowError` (which is not even a `ValueError`). -/
theorem c10_float_edge_cex :
    (pluginInitFloat true PyFloat.nan SizeUnit.kb false false true true true false
        true = Except.error PluginInitFloatFailure.intValueErrorNan ∧
      isValueError PluginInitFloatFailure.intValueErrorNan = true ∧
      pyLtConst (scaledChunkSizeFloat PyFloat.nan SizeUnit.kb) 1024 = false) ∧
    (pluginInitFloat true (PyFloat.finite FLOAT_MAX) SizeUnit.gb false false true
        true true false true = Except.error PluginInitFloatFailure.intOverflowError ∧
      isValueError PluginInitFloatFailure.intOverflowError = false ∧
      pyLtConst (scaledChunkSizeFloat (PyFloat.finite FLOAT_MAX) SizeUnit.gb) 1024 =
        false) :=
  ⟨⟨rfl, rfl, rfl⟩, ⟨rfl, rfl, rfl⟩⟩

/-- C10 (amended): with size unit KB, MB or GB, all other parameters
valid, a finite chunk size, and the scaling not overflowing the double
range (the scaled float is still a finite value `s`), the constructor
raises a `ValueError` if and only if the chunk size converted to bytes is
below 1024; a scaled size of at least 1024 bytes is accepted and stored
truncated to an integer byte budget.  (`scaledChunkSizeFloat_finite`
identifies such an `s` with the exact rational `scaledChunkSize`.)
Outside this qualifier the original claim fails, see the counterexample:
NaN passes validation and `int()` then raises `ValueError`, and an
overflowing size becomes infinity, whose `int()` raises `OverflowError`
instead of the value being accepted. -/
theorem c10_float_min_size (q s : ℚ) (size_unit : SizeUnit) (g : Bool)
    (hu : size_unit = SizeUnit.kb ∨ size_unit = SizeUnit.mb ∨ size_unit = SizeUnit.gb)
    (hno : scaledChunkSizeFloat (PyFloat.finite q) size_unit = PyFloat.finite s) :
    ((∃ f, pluginInitFloat true (PyFloat.finite q) size_unit g false true true true
        false true = Except.error f) ↔ s < 1024) ∧
    (1024 ≤ s →
      pluginInitFloat true (PyFloat.finite q) size_unit g false true true true
        false true =
        Except.ok { size := pyInt s, lines := false
                    group_pfx := g, include_header := false }) := by
  have hne_lines : ¬size_unit = SizeUnit.lines := by
    rcases hu with rfl | rfl | rfl <;> simp
  have hne_other : ¬size_unit = SizeUnit.other := by
    rcases hu with rfl | rfl | rfl <;> simp
  have herr : pluginInitErrorsFloat true (PyFloat.finite q) size_unit g false true
      true true = if s < 1024 then [CfgError.minChunkSize] else [] := by
    unfold pluginInitErrorsFloat
    rw [hno]
    simp [hne_lines, hne_other, pyLtConst]
  unfold pluginInitFloat
  rw [if_neg (by simp [hne_lines]), if_neg (by simp [hne_lines]), if_neg (by simp),
    herr, hno]
  by_cases hlt : s < 1024
  · rw [if_pos hlt]
    simp only [List.isEmpty_cons, Bool.false_eq_true, if_false]
    exact ⟨⟨fun _ => hlt, fun _ => ⟨_, rfl⟩⟩, fun hle => absurd hle (not_le.mpr hlt)⟩
  · rw [if_neg hlt]
    simp only [List.isEmpty_nil, if_true]
    refine ⟨⟨?_, fun h => absurd h hlt⟩, fun _ => ?_⟩
    · rintro ⟨f, hf⟩
      exact Except.noConfusion hf
    · simp [hne_lines]

/-- Witness for C10 (amended) at a concrete configuration (1 KB, exactly
the minimum, no overflow). -/
theorem c10_float_min_size_witness :
    ((∃ f, pluginInitFloat true (PyFloat.finite 1) SizeUnit.kb false false true true
        true false true = Except.error f) ↔ (1024 : ℚ) < 1024) ∧
    ((1024 : ℚ) ≤ 1024 →
      pluginInitFloat true (PyFloat.finite 1) SizeUnit.kb false false true true
        true false true =
        Except.ok { size := pyInt 1024, lines := false
                    group_pfx := false, include_header := false }) :=
  c10_float_min_size 1 1024 SizeUnit.kb false (Or.inl rfl) rfl
